import Mathlib

/-!
# Verification of the chordserver in-memory chord-resolution engine

Shallow embedding of the in-memory search engine of the chordserver
repository (the `ChordWithMeta` cache, the normalization functions, the
fingering index and the three search functions), together with theorems
settling the frozen claims about it.

Go strings are modelled as `List Char` (one entry per rune; the source
only inspects ASCII characters, and `strings.ToUpper`/`strings.ToLower`
are modelled by their ASCII action, which is what they perform on every
character the program compares against).  Go map iteration order is
unspecified, so every function that ranges over a map takes the
iteration sequence as an explicit parameter, constrained to be a
permutation of the map's entries.
-/

namespace ChordServer

/-- Go strings, one entry per rune. -/
abbrev GoStr := List Char

/-- ASCII action of Go `unicode.ToUpper`, applied rune-by-rune by
`strings.ToUpper`. -/
def goToUpperChar (c : Char) : Char :=
  if 'a' ≤ c ∧ c ≤ 'z' then Char.ofNat (c.toNat - 32) else c

/-- ASCII action of Go `unicode.ToLower`. -/
def goToLowerChar (c : Char) : Char :=
  if 'A' ≤ c ∧ c ≤ 'Z' then Char.ofNat (c.toNat + 32) else c

/-- Model of Go `strings.ToUpper`. -/
def goToUpper (s : GoStr) : GoStr := s.map goToUpperChar

/-- Model of Go `strings.ToLower`. -/
def goToLower (s : GoStr) : GoStr := s.map goToLowerChar

/-- Model of Go `strings.HasPrefix s p` (does `s` start with `p`?). -/
def goStartsWith (s p : GoStr) : Bool := p.isPrefixOf s

/-- Lookup in a Go `map[string]string` modelled as an association list
with pairwise-distinct keys. -/
def strMapLookup (m : List (GoStr × GoStr)) (k : GoStr) : Option GoStr :=
  match m with
  | [] => none
  | (k', v) :: rest => if k' = k then some v else strMapLookup rest k

/-- The `enharmonicMap` table of the source: map of enharmonic
equivalents. -/
def enharmonicMap : List (GoStr × GoStr) :=
  [ (['B', 'B'], ['A', '#'])
  , (['D', 'B'], ['C', '#'])
  , (['E', 'B'], ['D', '#'])
  , (['G', 'B'], ['F', '#'])
  , (['A', 'B'], ['G', '#'])
  , (['B', '#'], ['C'])
  , (['E', '#'], ['F']) ]

/-- The `suffixAliasMap` table of the source, including its lowercase
keys `"m"` and `"m7"` exactly as written there. -/
def suffixAliasMap : List (GoStr × GoStr) :=
  [ (['M'], ['m', 'a', 'j', 'o', 'r'])
  , (['M', 'A', 'J'], ['m', 'a', 'j', 'o', 'r'])
  , ([], ['m', 'a', 'j', 'o', 'r'])
  , (['m'], ['m', 'i', 'n', 'o', 'r'])
  , (['M', 'I', 'N'], ['m', 'i', 'n', 'o', 'r'])
  , (['M', 'I', 'N', 'O', 'R'], ['m', 'i', 'n', 'o', 'r'])
  , (['5'], ['5'])
  , (['P', 'O', 'W', 'E', 'R'], ['5'])
  , (['F', 'I', 'F', 'T', 'H'], ['5'])
  , (['7'], ['7'])
  , (['D', 'O', 'M', '7'], ['7'])
  , (['D', 'O', 'M'], ['7'])
  , (['m', '7'], ['m', '7'])
  , (['M', 'I', 'N', '7'], ['m', '7'])
  , (['M', 'I', 'N', 'O', 'R', '7'], ['m', '7'])
  , (['M', 'A', 'J', '7'], ['m', 'a', 'j', '7'])
  , (['M', 'A', 'J', 'O', 'R', '7'], ['m', 'a', 'j', '7'])
  , (['M', '7'], ['m', 'a', 'j', '7'])
  , (['S', 'U', 'S', '2'], ['s', 'u', 's', '2'])
  , (['S', 'U', 'S', '4'], ['s', 'u', 's', '4']) ]

/-- Model of `normalizeKey` of the source: uppercase, then substitute through
`enharmonicMap`. -/
def normalizeKey (key : GoStr) : GoStr :=
  let k := goToUpper key
  match strMapLookup enharmonicMap k with
  | some alt => alt
  | none => k

/-- Model of `normalizeSuffix` of the source: uppercase, then substitute through
`suffixAliasMap`. -/
def normalizeSuffix (suffix : GoStr) : GoStr :=
  let s := goToUpper suffix
  match strMapLookup suffixAliasMap s with
  | some alt => alt
  | none => s

/-- The `ChordWithMeta` record of the source.  `positions` keeps, for each
position carrying a string `"frets"` field, that frets string (the only
part of a position the engine reads; positions without one are skipped by
`loadChordData` and are omitted from the model).  `id` models Go pointer
identity: `loadChordData` allocates a fresh record per dataset row, so
two cache entries compare unequal as pointers iff their load indices
differ; `id` is that load index. -/
structure ChordWithMeta where
  id : Nat
  key : GoStr
  suffix : GoStr
  positions : List GoStr
  normalizedKey : GoStr
  normalizedSuffix : GoStr
  deriving DecidableEq, Repr

/-- One raw dataset row consumed by `loadChordData`: the `key` and
`suffix` columns and the frets strings of its positions. -/
structure RawChord where
  key : GoStr
  suffix : GoStr
  positions : List GoStr
  deriving DecidableEq, Repr

/-- A Go `map[string][]*ChordWithMeta`, modelled as an association list
with pairwise-distinct keys; `mapAppend` keeps that invariant. -/
abbrev ChordMap := List (GoStr × List ChordWithMeta)

/-- The in-memory store built by `loadChordData`: the `chordCache`
slice, the `normalizedMap` and the `fingeringMap` (the `chordMap` used
only by the direct-lookup HTTP handler plays no part in the claims and
is omitted). -/
structure Store where
  chordCache : List ChordWithMeta
  normalizedMap : ChordMap
  fingeringMap : ChordMap
  deriving DecidableEq, Repr

/-- Go `m[k]` lookup on a chord map. -/
def mapGet (m : ChordMap) (k : GoStr) : Option (List ChordWithMeta) :=
  match m with
  | [] => none
  | (k', v) :: rest => if k' = k then some v else mapGet rest k

/-- Go `m[k] = append(m[k], c)` on a chord map. -/
def mapAppend (m : ChordMap) (k : GoStr) (c : ChordWithMeta) : ChordMap :=
  match m with
  | [] => [(k, [c])]
  | (k', v) :: rest =>
    if k' = k then (k', v ++ [c]) :: rest else (k', v) :: mapAppend rest k c

/-- The key string `normalizedKey + "|" + normalizedSuffix` under which
`loadChordData` files a chord in `normalizedMap`. -/
def nmKeyOf (c : ChordWithMeta) : GoStr :=
  c.normalizedKey ++ '|' :: c.normalizedSuffix

/-- The chord record `loadChordData` builds from dataset row `e`
(`i` is the row's load index, standing in for the record's address). -/
def mkChord (i : Nat) (e : RawChord) : ChordWithMeta :=
  { id := i
  , key := e.key
  , suffix := e.suffix
  , positions := e.positions
  , normalizedKey := normalizeKey e.key
  , normalizedSuffix := normalizeSuffix e.suffix }

/-- The inner loop of `loadChordData` indexing one chord's positions
into `fingeringMap`. -/
def addFingerings (fm : ChordMap) (c : ChordWithMeta) : List GoStr → ChordMap
  | [] => fm
  | f :: rest => addFingerings (mapAppend fm f c) c rest

/-- One iteration of the row loop of `loadChordData` (the source's local
`chord` is written out as `mkChord i e`). -/
def addChord (st : Store) (i : Nat) (e : RawChord) : Store :=
  { chordCache := st.chordCache ++ [mkChord i e]
  , normalizedMap :=
      mapAppend st.normalizedMap (nmKeyOf (mkChord i e)) (mkChord i e)
  , fingeringMap := addFingerings st.fingeringMap (mkChord i e) e.positions }

/-- The row loop of `loadChordData`. -/
def loadAux : List RawChord → Nat → Store → Store
  | [], _, st => st
  | e :: rest, i, st => loadAux rest (i + 1) (addChord st i e)

/-- Model of `loadChordData` of the source: build the in-memory store from the
dataset rows. -/
def loadChordData (ds : List RawChord) : Store :=
  loadAux ds 0 ⟨[], [], []⟩

/-- Per-character test of `isLikelyFingeringPattern`. -/
def isFingeringChar (c : Char) : Bool :=
  decide (('0' ≤ c ∧ c ≤ '9') ∨ ('a' ≤ c ∧ c ≤ 'z') ∨ c = 'x' ∨ c = 'X')

/-- Model of `isLikelyFingeringPattern` of the source. -/
def isLikelyFingeringPattern (query : GoStr) : Bool :=
  query.all isFingeringChar

/-- The character class of the key/suffix split loop of
`searchByChordNameInMemory`: `[A-Ga-g#b]`. -/
def isKeyChar (c : Char) : Bool :=
  decide (('A' ≤ c ∧ c ≤ 'G') ∨ ('a' ≤ c ∧ c ≤ 'g') ∨ c = '#' ∨ c = 'b')

/-- The key/suffix split of `searchByChordNameInMemory`: `key` is the
leading run of key characters, `suffix` the rest; when that run is empty
the whole query becomes the key (the source's `if key == ""` fixup). -/
def splitChordName (query : GoStr) : GoStr × GoStr :=
  let key := query.takeWhile isKeyChar
  let suffix := query.dropWhile isKeyChar
  if key = [] then (query, []) else (key, suffix)

/-- Model of `getChordTypePriority` of the source. -/
def getChordTypePriority (suffix : GoStr) : Nat :=
  let s := goToLower suffix
  if s = [] ∨ s = ['m', 'a', 'j', 'o', 'r'] then 0
  else if s = ['m', 'i', 'n', 'o', 'r'] ∨ s = ['m'] then 1
  else if s = ['7'] then 2
  else if s = ['m', 'a', 'j', '7'] then 3
  else if s = ['m', '7'] ∨ s = ['m', 'i', 'n', '7'] then 4
  else if s = ['d', 'i', 'm'] then 5
  else if s = ['a', 'u', 'g'] then 6
  else if s = ['s', 'u', 's', '2'] then 7
  else if s = ['s', 'u', 's', '4'] then 8
  else 100

/-- Chord-type priority of a chord record. -/
def prio (c : ChordWithMeta) : Nat := getChordTypePriority c.suffix

/-- One left-to-right adjacent compare-and-swap walk of at most `n`
comparisons: the inner loop `for j := 0; j < n; j++` of
`sortByChordType`'s bubble sort. -/
def bubblePassN : Nat → List ChordWithMeta → List ChordWithMeta
  | 0, l => l
  | Nat.succ n, a :: b :: rest =>
    if prio b < prio a then b :: bubblePassN n (a :: rest)
    else a :: bubblePassN n (b :: rest)
  | Nat.succ _, l => l

/-- The outer loop of `sortByChordType`: pass `i` of the source performs
`n-i-1` comparisons, so with `k` passes left the next pass performs
`k-1`. -/
def sortPasses : Nat → List ChordWithMeta → List ChordWithMeta
  | 0, l => l
  | Nat.succ k, l => sortPasses k (bubblePassN k l)

/-- Model of `sortByChordType` of the source: in-place bubble sort by
`getChordTypePriority`, modelled functionally. -/
def sortByChordType (chords : List ChordWithMeta) : List ChordWithMeta :=
  sortPasses chords.length chords

/-- The prefix-collection loop shared by `searchByFingeringInMemory` and
`getChordsByFingering`: range over the fingering map (in the iteration
order `enum`) and append the chord lists of every frets key extending
the query. -/
def prefixScan (enum : ChordMap) (query : GoStr) : List ChordWithMeta :=
  enum.foldl
    (fun acc e => if goStartsWith e.1 query then acc ++ e.2 else acc) []

/-- Model of `searchByFingeringInMemory` of the source.  `enum` is the iteration
order of the Go map range in its prefix branch (Go leaves it
unspecified); the exact-match branch reads the map itself. -/
def searchByFingeringInMemory (st : Store) (enum : ChordMap)
    (query : GoStr) : List ChordWithMeta :=
  match mapGet st.fingeringMap query with
  | some chords => chords
  | none =>
    let results := prefixScan enum query
    if results.length > 10 then results.take 10 else results

/-- The special-case block of `searchByChordNameInMemory` for Bb/A#
queries; `none` models falling through to the next block. -/
def bbCase (st : Store) (query : GoStr) : Option (List ChordWithMeta) :=
  if goToUpper query = ['B', 'B'] ∨ goStartsWith (goToUpper query) ['B', 'B'] then
    let viaMajor : Option (List ChordWithMeta) :=
      if goToUpper query = ['B', 'B'] then
        match st.chordCache.find?
            (fun c => decide (c.key = ['A', '#'] ∧
              c.suffix = ['m', 'a', 'j', 'o', 'r'])) with
        | some aSharpMajor =>
          some (aSharpMajor ::
            st.chordCache.filter
              (fun c => decide (c ≠ aSharpMajor ∧ c.key = ['A', '#'])))
        | none => none
      else none
    match viaMajor with
    | some results => some results
    | none =>
      let results :=
        st.chordCache.filter (fun c => decide (c.key = ['A', '#']))
      if results.length > 0 then some (sortByChordType results) else none
  else none

/-- The special-case block of `searchByChordNameInMemory` for
Am/Amin/Aminor queries. -/
def amCase (st : Store) (query : GoStr) : Option (List ChordWithMeta) :=
  if goToUpper query = ['A', 'M'] ∨ goToUpper query = ['A', 'M', 'I', 'N'] ∨
      goToUpper query = ['A', 'M', 'I', 'N', 'O', 'R'] then
    match st.chordCache.find?
        (fun c => decide (c.key = ['A'] ∧
          c.suffix = ['m', 'i', 'n', 'o', 'r'])) with
    | some aMinor =>
      some (aMinor ::
        st.chordCache.filter
          (fun c => decide (c ≠ aMinor ∧ c.key = ['A'] ∧
            goStartsWith (goToLower c.suffix) ['m'] = true)))
    | none => none
  else none

/-- The special-case block of `searchByChordNameInMemory` for
C#/C#maj/C#major queries. -/
def cSharpCase (st : Store) (query : GoStr) : Option (List ChordWithMeta) :=
  if goToUpper query = ['C', '#'] ∨
      goToUpper query = ['C', '#', 'M', 'A', 'J'] ∨
      goToUpper query = ['C', '#', 'M', 'A', 'J', 'O', 'R'] then
    match st.chordCache.find?
        (fun c => decide (c.key = ['C', '#'] ∧
          c.suffix = ['m', 'a', 'j', 'o', 'r'])) with
    | some cSharpMajor =>
      some (cSharpMajor ::
        st.chordCache.filter
          (fun c => decide (c ≠ cSharpMajor ∧ c.key = ['C', '#'])))
    | none => none
  else none

/-- Whether any of the three special-case blocks of
`searchByChordNameInMemory` is triggered by the query. -/
def specialCaseTriggers (query : GoStr) : Bool :=
  decide
    (goToUpper query = ['B', 'B'] ∨ goStartsWith (goToUpper query) ['B', 'B'] ∨
     goToUpper query = ['A', 'M'] ∨ goToUpper query = ['A', 'M', 'I', 'N'] ∨
     goToUpper query = ['A', 'M', 'I', 'N', 'O', 'R'] ∨
     goToUpper query = ['C', '#'] ∨
     goToUpper query = ['C', '#', 'M', 'A', 'J'] ∨
     goToUpper query = ['C', '#', 'M', 'A', 'J', 'O', 'R'])

/-- The generic path of `searchByChordNameInMemory`: split, normalize,
exact `normalizedMap` lookup, then the partial-match fallback sorted by
chord-type priority and capped at 10. -/
def genericNameSearch (st : Store) (query : GoStr) : List ChordWithMeta :=
  let ks := splitChordName query
  let normalizedKey := normalizeKey ks.1
  let normalizedSuffix := normalizeSuffix ks.2
  let exact : Option (List ChordWithMeta) :=
    match mapGet st.normalizedMap (normalizedKey ++ '|' :: normalizedSuffix) with
    | some chords => if chords.length > 0 then some chords else none
    | none => none
  match exact with
  | some chords => chords
  | none =>
    let results :=
      st.chordCache.filter
        (fun c => decide (c.normalizedKey = normalizedKey ∧
          (ks.2 = [] ∨ goStartsWith (goToLower c.suffix) (goToLower ks.2) = true)))
    let sorted := sortByChordType results
    if sorted.length > 10 then sorted.take 10 else sorted

/-- Model of `searchByChordNameInMemory` of the source: the three special-case
blocks in order, then the generic path. -/
def searchByChordNameInMemory (st : Store) (query : GoStr) :
    List ChordWithMeta :=
  match bbCase st query with
  | some results => results
  | none =>
    match amCase st query with
    | some results => results
    | none =>
      match cSharpCase st query with
      | some results => results
      | none => genericNameSearch st query

/-- The deduplication key `chord.Key + "|" + chord.Suffix` of
`searchBothInMemory`. -/
def dedupKey (c : ChordWithMeta) : GoStr := c.key ++ '|' :: c.suffix

/-- The deduplication loop of `searchBothInMemory` (`seen` models the
`map[string]bool` set). -/
def dedupGo (seen : List GoStr) : List ChordWithMeta → List ChordWithMeta
  | [] => []
  | c :: rest =>
    if dedupKey c ∈ seen then dedupGo seen rest
    else c :: dedupGo (dedupKey c :: seen) rest

/-- Model of `searchBothInMemory` of the source. -/
def searchBothInMemory (st : Store) (enum : ChordMap) (query : GoStr) :
    List ChordWithMeta :=
  let chordResults := searchByChordNameInMemory st query
  if chordResults.length ≥ 5 then chordResults.take 5
  else
    let fingeringResults := searchByFingeringInMemory st enum query
    let results := chordResults ++ fingeringResults
    let uniqueResults := dedupGo [] results
    if uniqueResults.length > 10 then uniqueResults.take 10 else uniqueResults

/-- An unbounded left-to-right compare-and-swap walk; `bubblePassN n`
restricted to the first `n+1` elements coincides with it (proved
below). -/
def fullPass : List ChordWithMeta → List ChordWithMeta
  | [] => []
  | [a] => [a]
  | a :: b :: rest =>
    if prio b < prio a then b :: fullPass (a :: rest)
    else a :: fullPass (b :: rest)

/-- Wrapper returning `some l` when `l` is nonempty: the value/`ok` view of a Go map
lookup whose entry lists are never empty. -/
def optList (l : List ChordWithMeta) : Option (List ChordWithMeta) :=
  if l = [] then none else some l

/-- Modelled from the spec: deduplication by the `(key, suffix)` pair
itself (the spec's words for the combined search), rather than by the
concatenated string the source uses. -/
def pairDedupGo (seen : List (GoStr × GoStr)) :
    List ChordWithMeta → List ChordWithMeta
  | [] => []
  | c :: rest =>
    if (c.key, c.suffix) ∈ seen then pairDedupGo seen rest
    else c :: pairDedupGo ((c.key, c.suffix) :: seen) rest

/-- Modelled from the spec: combined resolution `resolveBoth` — name
results; if ≥ 5, first 5; otherwise concatenate with fingering results,
deduplicate by `(key, suffix)` pair keeping first occurrences, cap at
10. -/
def specResolveBoth (st : Store) (enum : ChordMap) (query : GoStr) :
    List ChordWithMeta :=
  let chordResults := searchByChordNameInMemory st query
  if chordResults.length ≥ 5 then chordResults.take 5
  else
    let u := pairDedupGo []
      (chordResults ++ searchByFingeringInMemory st enum query)
    if u.length > 10 then u.take 10 else u

/-- Byte-wise lexicographic strict order on Go strings (the order Go's
`<` uses on strings). -/
def goStrLt : GoStr → GoStr → Bool
  | [], [] => false
  | [], _ :: _ => true
  | _ :: _, [] => false
  | a :: s, b :: t => if a < b then true else if b < a then false else goStrLt s t

/-- Insertion into a chord-map entry list kept ascending by key. -/
def insertByKey (e : GoStr × List ChordWithMeta) : ChordMap → ChordMap
  | [] => [e]
  | e' :: rest =>
    if goStrLt e.1 e'.1 then e :: e' :: rest else e' :: insertByKey e rest

/-- Insertion sort of chord-map entries, ascending by key. -/
def sortByKeyAsc : ChordMap → ChordMap
  | [] => []
  | e :: rest => insertByKey e (sortByKeyAsc rest)

/-- Modelled from the spec: `lookupFingeringPrefix` — the union of the
exact-match lists of every indexed fingering string starting with the
prefix, ascending by fingering string, each list in insertion order. -/
def specFingeringPrefixUnion (st : Store) (p : GoStr) : List ChordWithMeta :=
  (sortByKeyAsc (st.fingeringMap.filter
    (fun e => goStartsWith e.1 p))).flatMap (fun e => e.2)

/-- Modelled from the spec: the chord-type priority table exactly as the
claim lists it (major/empty 0, minor/"m" 1, "7" 2, "maj7" 3, "m7" 4,
"dim" 5, "aug" 6, "sus2" 7, "sus4" 8, anything else 100). -/
def specChordTypePriority (suffix : GoStr) : Nat :=
  if suffix = [] ∨ suffix = ['m', 'a', 'j', 'o', 'r'] then 0
  else if suffix = ['m', 'i', 'n', 'o', 'r'] ∨ suffix = ['m'] then 1
  else if suffix = ['7'] then 2
  else if suffix = ['m', 'a', 'j', '7'] then 3
  else if suffix = ['m', '7'] then 4
  else if suffix = ['d', 'i', 'm'] then 5
  else if suffix = ['a', 'u', 'g'] then 6
  else if suffix = ['s', 'u', 's', '2'] then 7
  else if suffix = ['s', 'u', 's', '4'] then 8
  else 100

/-- The shape the Am/Amin/Aminor claim asserts of a result list: the
head is an A-minor record and every later record has key `"A"` and a
suffix beginning (case-insensitively) with `"m"`. -/
def amResultShape (st : Store) (query : GoStr) : Prop :=
  ∃ m rest, searchByChordNameInMemory st query = m :: rest ∧
    m.key = ['A'] ∧ m.suffix = ['m', 'i', 'n', 'o', 'r'] ∧
    ∀ x ∈ rest, x.key = ['A'] ∧ goStartsWith (goToLower x.suffix) ['m'] = true

/-- Dataset of one C-dim record (fixture of the C1 counterexample). -/
def dsCdim : List RawChord := [⟨['C'], ['d', 'i', 'm'], []⟩]

/-- Dataset of one A7 record (fixture of the C1 witness). -/
def dsA7 : List RawChord := [⟨['A'], ['7'], []⟩]

/-- Dataset with fingerings `"0"` and `"00"` on distinct records
(fixture of the C3 counterexample). -/
def dsNested : List RawChord :=
  [⟨['A'], [], [['0']]⟩, ⟨['B'], [], [['0', '0']]⟩]

/-- Dataset of two records with distinct `(key, suffix)` pairs whose
concatenated dedup keys collide (`"A|b" + "|" + "c"` and
`"A" + "|" + "b|c"`), sharing fingering `"99"` (fixture of the C4
counterexample). -/
def dsBar : List RawChord :=
  [ ⟨['A', '|', 'b'], ['c'], [['9', '9']]⟩
  , ⟨['A'], ['b', '|', 'c'], [['9', '9']]⟩ ]

/-- Dataset of a C-dim and a C-min7 record (fixture of the C6
counterexample). -/
def dsMin7 : List RawChord :=
  [⟨['C'], ['d', 'i', 'm'], []⟩, ⟨['C'], ['m', 'i', 'n', '7'], []⟩]

/-- Dataset of eleven records sharing fingering `"0"` (fixture of the C7
counterexample). -/
def dsEleven : List RawChord :=
  (List.range 11).map (fun _ => ⟨['D'], ['x'], [['0']]⟩)

/-- Dataset whose fingering keys `"34"`, `"33"` are indexed in
descending order (fixture of the C9 counterexample). -/
def dsDesc : List RawChord :=
  [⟨['A'], ['x'], [['3', '4']]⟩, ⟨['B'], ['y'], [['3', '3']]⟩]

/-- Dataset whose fingering keys `"33"`, `"34"` are indexed in ascending
order (fixture of the C9 witness). -/
def dsAsc : List RawChord :=
  [⟨['A'], ['x'], [['3', '3']]⟩, ⟨['B'], ['y'], [['3', '4']]⟩]

/-- Dataset of one A-major record with fingering `"0"` (fixture of the
C4 and C7 witnesses). -/
def dsPlain : List RawChord := [⟨['A'], ['m', 'a', 'j', 'o', 'r'], [['0']]⟩]

/-- Dataset of an A-minor and an A-m7 record (fixture of the C5
witness). -/
def dsAm : List RawChord :=
  [⟨['A'], ['m', 'i', 'n', 'o', 'r'], []⟩, ⟨['A'], ['m', '7'], []⟩]

/-! ## Basic lemmas about the string model -/

theorem toNat_ofNat_valid {n : Nat} (h : n < 55296) :
    (Char.ofNat n).toNat = n := by
  have hv : n.isValidChar := Or.inl h
  simp [Char.ofNat, hv, Char.ofNatAux, Char.toNat, UInt32.toNat,
    BitVec.toNat_ofNatLt]

theorem goToUpperChar_idem (c : Char) :
    goToUpperChar (goToUpperChar c) = goToUpperChar c := by
  unfold goToUpperChar
  by_cases h : 'a' ≤ c ∧ c ≤ 'z'
  · rw [if_pos h, if_neg]
    intro hcontra
    have h97 : (97 : Nat) ≤ c.toNat := h.1
    have h122 : c.toNat ≤ 122 := h.2
    have hval : (Char.ofNat (c.toNat - 32)).toNat = c.toNat - 32 :=
      toNat_ofNat_valid (by omega)
    have h97' : (97 : Nat) ≤ (Char.ofNat (c.toNat - 32)).toNat := hcontra.1
    omega
  · rw [if_neg h, if_neg h]

theorem goToUpper_idem (s : GoStr) : goToUpper (goToUpper s) = goToUpper s := by
  induction s with
  | nil => rfl
  | cons c rest ih =>
    simp only [goToUpper, List.map_cons, List.map_map] at ih ⊢
    rw [List.cons_eq_cons]
    exact ⟨goToUpperChar_idem c, ih⟩

theorem strMapLookup_mem {m : List (GoStr × GoStr)} {k v : GoStr}
    (h : strMapLookup m k = some v) : (k, v) ∈ m := by
  induction m with
  | nil => simp [strMapLookup] at h
  | cons e rest ih =>
    obtain ⟨k', v'⟩ := e
    simp only [strMapLookup] at h
    by_cases hk : k' = k
    · rw [if_pos hk] at h
      cases h
      subst hk
      exact List.mem_cons_self _ _
    · rw [if_neg hk] at h
      exact List.mem_cons_of_mem _ (ih h)

theorem startsWith_iff {s p : GoStr} : goStartsWith s p = true ↔ p <+: s := by
  unfold goStartsWith
  exact List.isPrefixOf_iff_prefix

/-! ## C10 — `normalizeKey` is idempotent -/

/-- C10: `normalizeKey` is idempotent: every value it can return — an
enharmonic-table substitute (`A#`, `C#`, `D#`, `F#`, `G#`, `C`, `F`) or
an uppercased pass-through — is a fixed point of `normalizeKey`. -/
theorem normalizeKey_idempotent (k : GoStr) :
    normalizeKey (normalizeKey k) = normalizeKey k := by
  cases h : strMapLookup enharmonicMap (goToUpper k) with
  | none =>
    have h1 : normalizeKey k = goToUpper k := by simp [normalizeKey, h]
    rw [h1]
    simp [normalizeKey, goToUpper_idem k, h]
  | some alt =>
    have h1 : normalizeKey k = alt := by simp [normalizeKey, h]
    rw [h1]
    have hmem : (goToUpper k, alt) ∈ enharmonicMap := strMapLookup_mem h
    simp only [enharmonicMap, List.mem_cons, List.not_mem_nil, or_false,
      Prod.mk.injEq] at hmem
    rcases hmem with ⟨_, h2⟩ | ⟨_, h2⟩ | ⟨_, h2⟩ | ⟨_, h2⟩ | ⟨_, h2⟩ |
      ⟨_, h2⟩ | ⟨_, h2⟩ <;> subst h2 <;> decide

/-! ## C2 — what `normalizeSuffix` actually computes -/

/-- C2: evaluation of `normalizeSuffix` on the claim's inputs.  Because
the input is uppercased before the table lookup, the table's lowercase
entries `"m" → "minor"` and `"m7" → "m7"` (still present in
`suffixAliasMap`, last two conjuncts) are unreachable: `"m"` hits the
`"M" → "major"` entry and `"m7"` hits `"M7" → "maj7"`.  All other
claimed values agree with the code. -/
theorem normalizeSuffix_eval :
    normalizeSuffix ['m'] = ['m', 'a', 'j', 'o', 'r'] ∧
    normalizeSuffix ['m', '7'] = ['m', 'a', 'j', '7'] ∧
    normalizeSuffix ['m', 'i', 'n'] = ['m', 'i', 'n', 'o', 'r'] ∧
    normalizeSuffix ['m', 'i', 'n', 'o', 'r'] = ['m', 'i', 'n', 'o', 'r'] ∧
    normalizeSuffix ['m', 'i', 'n', '7'] = ['m', '7'] ∧
    normalizeSuffix ['m', 'i', 'n', 'o', 'r', '7'] = ['m', '7'] ∧
    normalizeSuffix ['m', 'a', 'j', '7'] = ['m', 'a', 'j', '7'] ∧
    normalizeSuffix ['M', '7'] = ['m', 'a', 'j', '7'] ∧
    normalizeSuffix [] = ['m', 'a', 'j', 'o', 'r'] ∧
    normalizeSuffix ['s', 'u', 's', '2'] = ['s', 'u', 's', '2'] ∧
    normalizeSuffix ['s', 'u', 's', '4'] = ['s', 'u', 's', '4'] ∧
    (['m'], ['m', 'i', 'n', 'o', 'r']) ∈ suffixAliasMap ∧
    (['m', '7'], ['m', '7']) ∈ suffixAliasMap := by decide

/-! ## C8 — the fingering classifier -/

/-- C8: `isLikelyFingeringPattern` returns `true` iff every character is
a digit, a lowercase letter, or `x`/`X`; in particular it accepts
`"abcdef"` and the empty string. -/
theorem isLikelyFingeringPattern_spec :
    (∀ q : GoStr, isLikelyFingeringPattern q = true ↔
      ∀ c ∈ q, ('0' ≤ c ∧ c ≤ '9') ∨ ('a' ≤ c ∧ c ≤ 'z') ∨ c = 'x' ∨ c = 'X') ∧
    isLikelyFingeringPattern ['a', 'b', 'c', 'd', 'e', 'f'] = true ∧
    isLikelyFingeringPattern [] = true := by
  refine ⟨fun q => ?_, by decide, by decide⟩
  simp [isLikelyFingeringPattern, List.all_eq_true, isFingeringChar]

/-- Instantiation of `isLikelyFingeringPattern_spec` at `"x47654"`. -/
theorem isLikelyFingeringPattern_spec_w :
    isLikelyFingeringPattern ['x', '4', '7', '6', '5', '4'] = true :=
  (isLikelyFingeringPattern_spec.1 _).mpr (by decide)

/-! ## Lemmas about the fingering index -/

theorem mapGet_mem {m : ChordMap} {k : GoStr} {v : List ChordWithMeta}
    (h : mapGet m k = some v) : (k, v) ∈ m := by
  induction m with
  | nil => simp [mapGet] at h
  | cons e rest ih =>
    obtain ⟨k', v'⟩ := e
    simp only [mapGet] at h
    by_cases hk : k' = k
    · rw [if_pos hk] at h
      cases h
      subst hk
      exact List.mem_cons_self _ _
    · rw [if_neg hk] at h
      exact List.mem_cons_of_mem _ (ih h)

theorem prefixScan_aux (q : GoStr) (enum : ChordMap) :
    ∀ acc : List ChordWithMeta,
      List.foldl (fun acc e => if goStartsWith e.1 q then acc ++ e.2 else acc)
          acc enum
        = acc ++ (enum.filter
            (fun e => goStartsWith e.1 q)).flatMap (fun e => e.2) := by
  induction enum with
  | nil => intro acc; simp
  | cons e rest ih =>
    intro acc
    simp only [List.foldl_cons, List.filter_cons]
    by_cases hp : goStartsWith e.1 q = true
    · rw [ih]
      simp [hp, List.append_assoc]
    · rw [ih]
      simp [hp]

theorem prefixScan_eq (q : GoStr) (enum : ChordMap) :
    prefixScan enum q
      = (enum.filter (fun e => goStartsWith e.1 q)).flatMap (fun e => e.2) := by
  have h := prefixScan_aux q enum []
  simpa [prefixScan] using h

theorem mem_prefixScan {x : ChordWithMeta} {q : GoStr} {enum : ChordMap} :
    x ∈ prefixScan enum q ↔
      ∃ e ∈ enum, goStartsWith e.1 q = true ∧ x ∈ e.2 := by
  rw [prefixScan_eq]
  simp only [List.mem_flatMap, List.mem_filter]
  tauto

theorem prefixScan_perm {enum₁ enum₂ : ChordMap} (h : enum₁.Perm enum₂)
    (q : GoStr) : (prefixScan enum₁ q).Perm (prefixScan enum₂ q) := by
  rw [prefixScan_eq, prefixScan_eq]
  exact List.Perm.flatMap_right _ (List.Perm.filter _ h)

theorem searchByFingering_no_exact (st : Store) (enum : ChordMap) (p : GoStr)
    (h : enum.Perm st.fingeringMap) (hex : mapGet st.fingeringMap p = none)
    (hlen : (prefixScan st.fingeringMap p).length ≤ 10) :
    searchByFingeringInMemory st enum p = prefixScan enum p := by
  have hl : (prefixScan enum p).length = (prefixScan st.fingeringMap p).length :=
    (prefixScan_perm h p).length_eq
  simp only [searchByFingeringInMemory, hex]
  rw [if_neg]
  omega

theorem mem_searchByFingering {st : Store} {enum : ChordMap} {q : GoStr}
    {x : ChordWithMeta} (hx : x ∈ searchByFingeringInMemory st enum q) :
    x ∈ prefixScan enum q ∨
      ∃ l, mapGet st.fingeringMap q = some l ∧ x ∈ l := by
  cases hex : mapGet st.fingeringMap q with
  | some l =>
    refine Or.inr ⟨l, rfl, ?_⟩
    simpa [searchByFingeringInMemory, hex] using hx
  | none =>
    simp only [searchByFingeringInMemory, hex] at hx
    split at hx
    · exact Or.inl (List.take_subset _ _ hx)
    · exact Or.inl hx

/-! ## C7 — the length cap of fingering resolution -/

/-- C7 (counterexample): with eleven records indexed under fingering
`"0"`, the exact-match branch of `searchByFingeringInMemory` returns all
eleven records — the claimed cap of 10 does not apply to exact
matches. -/
theorem searchByFingering_exact_uncapped :
    (searchByFingeringInMemory (loadChordData dsEleven)
      (loadChordData dsEleven).fingeringMap ['0']).length = 11 := by decide

/-- C7 (amended): exact fingering matches are returned without
truncation; only when the query has no exact entry in the fingering
index (the prefix branch) is the result capped at 10 records. -/
theorem searchByFingering_len_le (st : Store) (enum : ChordMap) (q : GoStr)
    (hex : mapGet st.fingeringMap q = none) :
    (searchByFingeringInMemory st enum q).length ≤ 10 := by
  simp only [searchByFingeringInMemory, hex]
  split
  · simp [List.length_take]
  · next h => omega

/-- Instantiation of `searchByFingering_len_le` on the one-record store
and the unindexed query `"7"`. -/
theorem searchByFingering_len_le_w :
    (searchByFingeringInMemory (loadChordData dsPlain)
      (loadChordData dsPlain).fingeringMap ['7']).length ≤ 10 :=
  searchByFingering_len_le _ _ _ (by decide)

/-! ## C3 — prefix monotonicity of fingering resolution -/

/-- C3 (counterexample): with fingerings `"0"` and `"00"` on distinct
records, both `resolveByFingering("0")` and `resolveByFingering("00")`
are non-empty exact matches, yet the record returned for `"00"` is not
among those returned for `"0"`. -/
theorem fingering_not_monotonic :
    searchByFingeringInMemory (loadChordData dsNested)
        (loadChordData dsNested).fingeringMap ['0']
      = [mkChord 0 ⟨['A'], [], [['0']]⟩] ∧
    searchByFingeringInMemory (loadChordData dsNested)
        (loadChordData dsNested).fingeringMap ['0', '0']
      = [mkChord 1 ⟨['B'], [], [['0', '0']]⟩] ∧
    mkChord 1 ⟨['B'], [], [['0', '0']]⟩ ∉
      [mkChord 0 ⟨['A'], [], [['0']]⟩] := by decide

/-- C3 (amended): fingering resolution is prefix-monotonic at `p`
whenever `p` itself has no exact entry in the fingering index and its
prefix matches are not truncated (at most 10): every record returned for
`p + c` is also returned for `p`, for any iteration orders of the Go
map. -/
theorem fingering_prefix_monotonic (st : Store) (enum₁ enum₂ : ChordMap)
    (p : GoStr) (c : Char)
    (h1 : enum₁.Perm st.fingeringMap) (h2 : enum₂.Perm st.fingeringMap)
    (hex : mapGet st.fingeringMap p = none)
    (hlen : (prefixScan st.fingeringMap p).length ≤ 10) :
    searchByFingeringInMemory st enum₂ (p ++ [c]) ⊆
      searchByFingeringInMemory st enum₁ p := by
  rw [searchByFingering_no_exact st enum₁ p h1 hex hlen]
  intro x hx
  rw [mem_prefixScan]
  rcases mem_searchByFingering hx with hscan | ⟨l, hl, hxl⟩
  · obtain ⟨e, he, hpre, hxe⟩ := mem_prefixScan.mp hscan
    refine ⟨e, h1.mem_iff.mpr (h2.mem_iff.mp he), ?_, hxe⟩
    exact startsWith_iff.mpr
      ( List.IsPrefix.trans ( List.prefix_append p [c]) (startsWith_iff.mp hpre))
  · refine ⟨(p ++ [c], l), h1.mem_iff.mpr (mapGet_mem hl), ?_, hxl⟩
    exact startsWith_iff.mpr ( List.prefix_append p [c])

/-- Instantiation of `fingering_prefix_monotonic` on the two-record
store with fingerings `"34"`, `"33"` at `p = "3"`, `c = '4'`. -/
theorem fingering_prefix_monotonic_w :
    searchByFingeringInMemory (loadChordData dsDesc)
        (loadChordData dsDesc).fingeringMap (['3'] ++ ['4']) ⊆
      searchByFingeringInMemory (loadChordData dsDesc)
        (loadChordData dsDesc).fingeringMap ['3'] :=
  fingering_prefix_monotonic _ _ _ ['3'] '4' (List.Perm.refl _)
    (List.Perm.refl _) (by decide) (by decide)

/-! ## C9 — order of the prefix branch of fingering lookup -/

theorem insertByKey_perm (e : GoStr × List ChordWithMeta) (l : ChordMap) :
    (insertByKey e l).Perm (e :: l) := by
  induction l with
  | nil => exact List.Perm.refl _
  | cons e' rest ih =>
    simp only [insertByKey]
    by_cases hlt : goStrLt e.1 e'.1 = true
    · rw [if_pos hlt]
    · rw [if_neg hlt]
      exact (ih.cons e').trans (List.Perm.swap e e' rest)

theorem sortByKeyAsc_perm (l : ChordMap) : (sortByKeyAsc l).Perm l := by
  induction l with
  | nil => exact List.Perm.refl _
  | cons e rest ih => exact (insertByKey_perm e _).trans (ih.cons e)

/-- C9 (counterexample): with fingering keys indexed in the order
`"34"`, `"33"`, iterating the map in that (legal) order makes the prefix
branch return the `"34"` record before the `"33"` record, which is not
the ascending-by-fingering-string order the claim asserts. -/
theorem fingering_prefix_not_ascending :
    searchByFingeringInMemory (loadChordData dsDesc)
        (loadChordData dsDesc).fingeringMap ['3']
      = [mkChord 0 ⟨['A'], ['x'], [['3', '4']]⟩,
         mkChord 1 ⟨['B'], ['y'], [['3', '3']]⟩] ∧
    specFingeringPrefixUnion (loadChordData dsDesc) ['3']
      = [mkChord 1 ⟨['B'], ['y'], [['3', '3']]⟩,
         mkChord 0 ⟨['A'], ['x'], [['3', '4']]⟩] ∧
    [mkChord 0 ⟨['A'], ['x'], [['3', '4']]⟩,
     mkChord 1 ⟨['B'], ['y'], [['3', '3']]⟩] ≠
      [mkChord 1 ⟨['B'], ['y'], [['3', '3']]⟩,
       mkChord 0 ⟨['A'], ['x'], [['3', '4']]⟩] := by decide

/-- C9 (amended): the prefix branch of fingering lookup returns, up to
the unspecified Go map iteration order, exactly the union of the
exact-match lists of every indexed fingering string starting with the
prefix (a permutation of the spec's ascending-order union), provided the
collection is not truncated (at most 10 records). -/
theorem fingering_prefix_union_perm (st : Store) (enum : ChordMap)
    (p : GoStr) (h : enum.Perm st.fingeringMap)
    (hex : mapGet st.fingeringMap p = none)
    (hlen : (prefixScan st.fingeringMap p).length ≤ 10) :
    (searchByFingeringInMemory st enum p).Perm
      (specFingeringPrefixUnion st p) := by
  rw [searchByFingering_no_exact st enum p h hex hlen, prefixScan_eq]
  unfold specFingeringPrefixUnion
  exact List.Perm.flatMap_right _
    ((List.Perm.filter _ h).trans (sortByKeyAsc_perm _).symm)

/-- Instantiation of `fingering_prefix_union_perm` on the two-record
store with fingerings `"33"`, `"34"` at `p = "3"`. -/
theorem fingering_prefix_union_perm_w :
    (searchByFingeringInMemory (loadChordData dsAsc)
        (loadChordData dsAsc).fingeringMap ['3']).Perm
      (specFingeringPrefixUnion (loadChordData dsAsc) ['3']) :=
  fingering_prefix_union_perm _ _ _ (List.Perm.refl _) (by decide) (by decide)

/-! ## C4 — combined resolution and its deduplication key -/

theorem barKey_inj {k1 s1 k2 s2 : GoStr} (h1 : '|' ∉ k1) (h2 : '|' ∉ k2)
    (h : k1 ++ '|' :: s1 = k2 ++ '|' :: s2) : k1 = k2 ∧ s1 = s2 := by
  induction k1 generalizing k2 with
  | nil =>
    cases k2 with
    | nil => simpa using h
    | cons b t =>
      exfalso
      apply h2
      rw [List.nil_append, List.cons_append] at h
      cases h
      exact List.mem_cons_self _ _
  | cons a t1 ih =>
    cases k2 with
    | nil =>
      exfalso
      apply h1
      rw [List.nil_append, List.cons_append] at h
      cases h
      exact List.mem_cons_self _ _
    | cons b t2 =>
      rw [List.cons_append, List.cons_append] at h
      injection h with hab ht
      have h1' : '|' ∉ t1 := fun hm => h1 (List.mem_cons_of_mem _ hm)
      have h2' : '|' ∉ t2 := fun hm => h2 (List.mem_cons_of_mem _ hm)
      obtain ⟨hk, hs⟩ := ih h1' h2' ht
      exact ⟨by rw [hab, hk], hs⟩

theorem dedupGo_eq_pairDedup :
    ∀ (l : List ChordWithMeta) (seen : List (GoStr × GoStr)),
      (∀ c ∈ l, '|' ∉ c.key) → (∀ p ∈ seen, '|' ∉ p.1) →
      dedupGo (seen.map (fun p => p.1 ++ '|' :: p.2)) l
        = pairDedupGo seen l := by
  intro l
  induction l with
  | nil => intro seen _ _; rfl
  | cons c rest ih =>
    intro seen hl hs
    have hc : '|' ∉ c.key := hl c (List.mem_cons_self _ _)
    have hmem : dedupKey c ∈ seen.map (fun p => p.1 ++ '|' :: p.2) ↔
        (c.key, c.suffix) ∈ seen := by
      simp only [List.mem_map]
      constructor
      · rintro ⟨p, hp, hpe⟩
        simp only [dedupKey] at hpe
        obtain ⟨hk, hsx⟩ := barKey_inj (hs p hp) hc hpe
        have hpc : p = (c.key, c.suffix) := Prod.ext hk hsx
        exact hpc ▸ hp
      · intro hp
        exact ⟨(c.key, c.suffix), hp, rfl⟩
    simp only [dedupGo, pairDedupGo]
    by_cases hin : (c.key, c.suffix) ∈ seen
    · rw [if_pos (hmem.mpr hin), if_pos hin]
      exact ih seen (fun x hx => hl x (List.mem_cons_of_mem _ hx)) hs
    · rw [if_neg (fun hmm => hin (hmem.mp hmm)), if_neg hin]
      have hstep :
          dedupGo (dedupKey c :: seen.map (fun p => p.1 ++ '|' :: p.2)) rest
            = dedupGo (((c.key, c.suffix) :: seen).map
                (fun p => p.1 ++ '|' :: p.2)) rest := rfl
      rw [hstep,
        ih ((c.key, c.suffix) :: seen)
          (fun x hx => hl x (List.mem_cons_of_mem _ hx))
          (fun p hp => by
            rcases List.mem_cons.mp hp with hp1 | hp2
            · exact hp1 ▸ hc
            · exact hs p hp2)]

/-- C4 (counterexample): the dedup key is the string
`key + "|" + suffix`, so the records `("A|b", "c")` and `("A", "b|c")` —
distinct `(key, suffix)` pairs — collide and the second is dropped,
while deduplication by pair (what the claim states, computed by
`specResolveBoth`) keeps both. -/
theorem searchBoth_dedup_collision :
    searchBothInMemory (loadChordData dsBar)
        (loadChordData dsBar).fingeringMap ['9', '9']
      = [mkChord 0 ⟨['A', '|', 'b'], ['c'], [['9', '9']]⟩] ∧
    specResolveBoth (loadChordData dsBar)
        (loadChordData dsBar).fingeringMap ['9', '9']
      = [mkChord 0 ⟨['A', '|', 'b'], ['c'], [['9', '9']]⟩,
         mkChord 1 ⟨['A'], ['b', '|', 'c'], [['9', '9']]⟩] ∧
    (mkChord 0 ⟨['A', '|', 'b'], ['c'], [['9', '9']]⟩).key ≠
      (mkChord 1 ⟨['A'], ['b', '|', 'c'], [['9', '9']]⟩).key := by decide

/-- C4 (amended): combined resolution takes the first 5 name results when
there are at least 5; otherwise it concatenates name and fingering
results, deduplicates by the concatenated string `key + "|" + suffix`
keeping first occurrences, and caps at 10.  When no involved record's
key contains `'|'` (true of every real chord key), this deduplication
coincides with deduplication by the `(key, suffix)` pair, i.e. the
result equals the spec's `resolveBoth`. -/
theorem searchBoth_pair_dedup (st : Store) (enum : ChordMap) (q : GoStr)
    (h : ∀ c ∈ searchByChordNameInMemory st q ++
        searchByFingeringInMemory st enum q, '|' ∉ c.key) :
    searchBothInMemory st enum q = specResolveBoth st enum q := by
  have hd : dedupGo []
      (searchByChordNameInMemory st q ++ searchByFingeringInMemory st enum q)
      = pairDedupGo []
        (searchByChordNameInMemory st q ++
          searchByFingeringInMemory st enum q) := by
    have := dedupGo_eq_pairDedup
      (searchByChordNameInMemory st q ++ searchByFingeringInMemory st enum q)
      [] h (by simp)
    simpa using this
  simp only [searchBothInMemory, specResolveBoth]
  by_cases h5 : (searchByChordNameInMemory st q).length ≥ 5
  · rw [if_pos h5, if_pos h5]
  · rw [if_neg h5, if_neg h5, hd]

/-- Instantiation of `searchBoth_pair_dedup` on the one-record store at
query `"0"`. -/
theorem searchBoth_pair_dedup_w :
    searchBothInMemory (loadChordData dsPlain)
        (loadChordData dsPlain).fingeringMap ['0']
      = specResolveBoth (loadChordData dsPlain)
        (loadChordData dsPlain).fingeringMap ['0'] :=
  searchBoth_pair_dedup _ _ _ (by decide)

/-! ## C5 — the Am/Amin/Aminor special case -/

theorem am_shape_of_trigger (st : Store) (query : GoStr)
    (hbb : ¬(goToUpper query = ['B', 'B'] ∨
      goStartsWith (goToUpper query) ['B', 'B'] = true))
    (hq : goToUpper query = ['A', 'M'] ∨
      goToUpper query = ['A', 'M', 'I', 'N'] ∨
      goToUpper query = ['A', 'M', 'I', 'N', 'O', 'R'])
    (hex : ∃ c ∈ st.chordCache,
      c.key = ['A'] ∧ c.suffix = ['m', 'i', 'n', 'o', 'r']) :
    amResultShape st query := by
  have hfind : (st.chordCache.find?
      (fun c => decide (c.key = ['A'] ∧
        c.suffix = ['m', 'i', 'n', 'o', 'r']))).isSome := by
    obtain ⟨c, hc, h1, h2⟩ := hex
    exact List.find?_isSome.mpr ⟨c, hc, by simp [h1, h2]⟩
  obtain ⟨m, hm⟩ := Option.isSome_iff_exists.mp hfind
  have hmp : m.key = ['A'] ∧ m.suffix = ['m', 'i', 'n', 'o', 'r'] := by
    have h := List.find?_some hm
    simpa using h
  have hbb0 : bbCase st query = none := by
    unfold bbCase
    rw [if_neg hbb]
  have ham : amCase st query
      = some (m :: st.chordCache.filter
          (fun c => decide (c ≠ m ∧ c.key = ['A'] ∧
            goStartsWith (goToLower c.suffix) ['m'] = true))) := by
    unfold amCase
    rw [if_pos hq, hm]
  have hsearch : searchByChordNameInMemory st query
      = m :: st.chordCache.filter
          (fun c => decide (c ≠ m ∧ c.key = ['A'] ∧
            goStartsWith (goToLower c.suffix) ['m'] = true)) := by
    unfold searchByChordNameInMemory
    rw [hbb0, ham]
  refine ⟨m, _, hsearch, hmp.1, hmp.2, ?_⟩
  intro x hx
  have hxp := of_decide_eq_true (List.mem_filter.mp hx).2
  exact ⟨hxp.2.1, hxp.2.2⟩

/-- C5: when the store holds an A-minor record, each of the queries
`"Am"`, `"Amin"`, `"Aminor"` resolves with an A-minor record first,
followed only by other key-`"A"` records whose suffix begins
(case-insensitively) with `"m"`. -/
theorem am_alias_first (st : Store)
    (hex : ∃ c ∈ st.chordCache,
      c.key = ['A'] ∧ c.suffix = ['m', 'i', 'n', 'o', 'r']) :
    amResultShape st ['A', 'm'] ∧
    amResultShape st ['A', 'm', 'i', 'n'] ∧
    amResultShape st ['A', 'm', 'i', 'n', 'o', 'r'] :=
  ⟨am_shape_of_trigger st _ (by decide) (by decide) hex,
   am_shape_of_trigger st _ (by decide) (by decide) hex,
   am_shape_of_trigger st _ (by decide) (by decide) hex⟩

/-- Instantiation of `am_alias_first` on the store holding A-minor and
A-m7 records. -/
theorem am_alias_first_w :
    amResultShape (loadChordData dsAm) ['A', 'm'] ∧
    amResultShape (loadChordData dsAm) ['A', 'm', 'i', 'n'] ∧
    amResultShape (loadChordData dsAm) ['A', 'm', 'i', 'n', 'o', 'r'] :=
  am_alias_first _
    ⟨mkChord 0 ⟨['A'], ['m', 'i', 'n', 'o', 'r'], []⟩,
      by decide, by decide, by decide⟩

/-! ## Lemmas about the bubble sort of `sortByChordType` -/

theorem fullPass_perm (l : List ChordWithMeta) : (fullPass l).Perm l := by
  induction l using fullPass.induct with
  | case1 => simp [fullPass]
  | case2 a => simp [fullPass]
  | case3 a b rest h ih =>
    rw [fullPass, if_pos h]
    exact (ih.cons b).trans (List.Perm.swap ..)
  | case4 a b rest h ih =>
    rw [fullPass, if_neg h]
    exact ih.cons a

theorem fullPass_last :
    ∀ l : List ChordWithMeta, l ≠ [] →
      ∃ g m, fullPass l = g ++ [m] ∧ ∀ x ∈ l, prio x ≤ prio m := by
  intro l
  induction l using fullPass.induct with
  | case1 => intro h; exact absurd rfl h
  | case2 a => exact fun _ => ⟨[], a, by simp [fullPass], by simp⟩
  | case3 a b rest h ih =>
    intro _
    obtain ⟨g, m, hgm, hmax⟩ := ih (by simp)
    refine ⟨b :: g, m, ?_, ?_⟩
    · rw [fullPass, if_pos h, hgm, List.cons_append]
    · intro x hx
      simp only [List.mem_cons] at hx
      rcases hx with rfl | rfl | hx
      · exact hmax x (List.mem_cons_self _ _)
      · exact le_trans (Nat.le_of_lt h) (hmax a (List.mem_cons_self _ _))
      · exact hmax x (List.mem_cons_of_mem _ hx)
  | case4 a b rest h ih =>
    intro _
    obtain ⟨g, m, hgm, hmax⟩ := ih (by simp)
    refine ⟨a :: g, m, ?_, ?_⟩
    · rw [fullPass, if_neg h, hgm, List.cons_append]
    · intro x hx
      simp only [List.mem_cons] at hx
      rcases hx with rfl | rfl | hx
      · exact le_trans (Nat.le_of_not_lt h) (hmax b (List.mem_cons_self _ _))
      · exact hmax x (List.mem_cons_self _ _)
      · exact hmax x (List.mem_cons_of_mem _ hx)

theorem fullPass_pairwise (R : ChordWithMeta → ChordWithMeta → Prop)
    (hR : ∀ a b, prio b < prio a → R b a) :
    ∀ l : List ChordWithMeta, l.Pairwise R → (fullPass l).Pairwise R := by
  intro l
  induction l using fullPass.induct with
  | case1 => intro h; simp [fullPass]
  | case2 a => intro h; simp [fullPass]
  | case3 a b rest h ih =>
    intro hp
    rw [fullPass, if_pos h]
    rcases List.pairwise_cons.mp hp with ⟨ha, hp1⟩
    rcases List.pairwise_cons.mp hp1 with ⟨hb, hp2⟩
    refine List.pairwise_cons.mpr ⟨?_, ih ?_⟩
    · intro x hx
      rcases List.mem_cons.mp ((fullPass_perm _).subset hx) with rfl | hx2
      · exact hR x b h
      · exact hb x hx2
    · exact List.pairwise_cons.mpr
        ⟨fun x hx => ha x (List.mem_cons_of_mem _ hx), hp2⟩
  | case4 a b rest h ih =>
    intro hp
    rw [fullPass, if_neg h]
    rcases List.pairwise_cons.mp hp with ⟨ha, hp1⟩
    exact List.pairwise_cons.mpr
      ⟨fun x hx => ha x ((fullPass_perm _).subset hx), ih hp1⟩

theorem bubblePassN_eq (k : Nat) :
    ∀ l : List ChordWithMeta,
      bubblePassN k l = fullPass (l.take (k + 1)) ++ l.drop (k + 1) := by
  induction k with
  | zero =>
    intro l
    cases l with
    | nil => simp [bubblePassN, fullPass]
    | cons a rest => simp [bubblePassN, fullPass]
  | succ k ih =>
    intro l
    match l with
    | [] => simp [bubblePassN, fullPass]
    | [a] => simp [bubblePassN, fullPass]
    | a :: b :: rest =>
      have hbp : bubblePassN (k + 1) (a :: b :: rest)
          = if prio b < prio a then b :: bubblePassN k (a :: rest)
            else a :: bubblePassN k (b :: rest) := rfl
      rw [hbp, List.take_succ_cons, List.take_succ_cons,
        List.drop_succ_cons, List.drop_succ_cons, fullPass]
      by_cases h : prio b < prio a
      · rw [if_pos h, if_pos h, ih (a :: rest), List.take_succ_cons,
          List.drop_succ_cons, List.cons_append]
      · rw [if_neg h, if_neg h, ih (b :: rest), List.take_succ_cons,
          List.drop_succ_cons, List.cons_append]

theorem bubblePassN_perm (k : Nat) (l : List ChordWithMeta) :
    (bubblePassN k l).Perm l := by
  rw [bubblePassN_eq]
  have h1 : (fullPass (l.take (k + 1)) ++ l.drop (k + 1)).Perm
      (l.take (k + 1) ++ l.drop (k + 1)) :=
    (fullPass_perm _).append_right _
  have h2 : l.take (k + 1) ++ l.drop (k + 1) = l := List.take_append_drop _ _
  rw [h2] at h1
  exact h1

theorem bubblePassN_pairwise (R : ChordWithMeta → ChordWithMeta → Prop)
    (hR : ∀ a b, prio b < prio a → R b a) (k : Nat)
    (l : List ChordWithMeta) (hp : l.Pairwise R) :
    (bubblePassN k l).Pairwise R := by
  rw [bubblePassN_eq]
  have hp' : (l.take (k + 1) ++ l.drop (k + 1)).Pairwise R := by
    rw [List.take_append_drop]
    exact hp
  rcases List.pairwise_append.mp hp' with ⟨h1, h2, h3⟩
  exact List.pairwise_append.mpr
    ⟨fullPass_pairwise R hR _ h1, h2,
      fun x hx y hy => h3 x ((fullPass_perm _).subset hx) y hy⟩

theorem sortPasses_perm :
    ∀ (k : Nat) (l : List ChordWithMeta), (sortPasses k l).Perm l := by
  intro k
  induction k with
  | zero => intro l; exact List.Perm.refl _
  | succ k ih => intro l; exact (ih _).trans (bubblePassN_perm k l)

theorem sortPasses_pairwise (R : ChordWithMeta → ChordWithMeta → Prop)
    (hR : ∀ a b, prio b < prio a → R b a) :
    ∀ (k : Nat) (l : List ChordWithMeta),
      l.Pairwise R → (sortPasses k l).Pairwise R := by
  intro k
  induction k with
  | zero => intro l hp; exact hp
  | succ k ih => intro l hp; exact ih _ (bubblePassN_pairwise R hR k l hp)

theorem sortPasses_sorted :
    ∀ (k : Nat) (f b : List ChordWithMeta), f.length = k →
      b.Pairwise (fun a c => prio a ≤ prio c) →
      (∀ x ∈ f, ∀ y ∈ b, prio x ≤ prio y) →
      (sortPasses k (f ++ b)).Pairwise (fun a c => prio a ≤ prio c) := by
  intro k
  induction k with
  | zero =>
    intro f b hlen hb _
    have hf : f = [] := List.length_eq_zero.mp hlen
    subst hf
    simpa [sortPasses] using hb
  | succ k ih =>
    intro f b hlen hb hcross
    have hfne : f ≠ [] := by
      intro h
      subst h
      simp at hlen
    have hstep : sortPasses (k + 1) (f ++ b)
        = sortPasses k (bubblePassN k (f ++ b)) := rfl
    have htake : (f ++ b).take (k + 1) = f := by
      rw [← hlen]
      exact List.take_left f b
    have hdrop : (f ++ b).drop (k + 1) = b := by
      rw [← hlen]
      exact List.drop_left f b
    rw [hstep, bubblePassN_eq, htake, hdrop]
    obtain ⟨g, m, hgm, hmax⟩ := fullPass_last f hfne
    have hperm : (g ++ [m]).Perm f := hgm ▸ fullPass_perm f
    have hglen : g.length = k := by
      have hlen2 := hperm.length_eq
      simp only [List.length_append, List.length_singleton] at hlen2
      omega
    rw [hgm, List.append_assoc, List.singleton_append]
    apply ih g (m :: b) hglen
    · refine List.pairwise_cons.mpr ⟨?_, hb⟩
      intro y hy
      exact hcross m (hperm.subset (by simp)) y hy
    · intro x hx y hy
      rcases List.mem_cons.mp hy with rfl | hy2
      · exact hmax x (hperm.subset (List.mem_append_left _ hx))
      · exact hcross x (hperm.subset (List.mem_append_left _ hx)) y hy2

/-! ## C6 — the partial-match fallback's sort and priority table -/

/-- C6 (counterexample): `getChordTypePriority` gives `"min7"` priority
4 (like `"m7"`), not the 100 the claim's table assigns to unlisted
suffixes, so the fallback output for query `"C"` over a C-dim / C-min7
store is not sorted by the claimed table (min7 = 100 sorts after
dim = 5). -/
theorem fallback_not_spec_sorted :
    searchByChordNameInMemory (loadChordData dsMin7) ['C']
      = [mkChord 1 ⟨['C'], ['m', 'i', 'n', '7'], []⟩,
         mkChord 0 ⟨['C'], ['d', 'i', 'm'], []⟩] ∧
    getChordTypePriority ['m', 'i', 'n', '7'] = 4 ∧
    specChordTypePriority ['m', 'i', 'n', '7'] = 100 ∧
    ¬ (searchByChordNameInMemory (loadChordData dsMin7) ['C']).Pairwise
        (fun a c => specChordTypePriority a.suffix ≤
          specChordTypePriority c.suffix) := by decide

/-- C6 (amended): the fallback's sort is by the code's priority table —
the claim's table with suffixes compared after lowercasing and with
`"min7"` (like `"m7"`) at priority 4, everything else unlisted at 100 —
and the bubble sort it uses is stable: it permutes the records into
priority order, and records of equal priority keep their original
dataset order (strictly increasing load ids). -/
theorem sortByChordType_spec :
    (getChordTypePriority [] = 0 ∧
     getChordTypePriority ['m', 'a', 'j', 'o', 'r'] = 0 ∧
     getChordTypePriority ['m', 'i', 'n', 'o', 'r'] = 1 ∧
     getChordTypePriority ['m'] = 1 ∧
     getChordTypePriority ['7'] = 2 ∧
     getChordTypePriority ['m', 'a', 'j', '7'] = 3 ∧
     getChordTypePriority ['m', '7'] = 4 ∧
     getChordTypePriority ['m', 'i', 'n', '7'] = 4 ∧
     getChordTypePriority ['d', 'i', 'm'] = 5 ∧
     getChordTypePriority ['a', 'u', 'g'] = 6 ∧
     getChordTypePriority ['s', 'u', 's', '2'] = 7 ∧
     getChordTypePriority ['s', 'u', 's', '4'] = 8) ∧
    (∀ s : GoStr,
      goToLower s ∉ ([[], ['m', 'a', 'j', 'o', 'r'], ['m', 'i', 'n', 'o', 'r'],
        ['m'], ['7'], ['m', 'a', 'j', '7'], ['m', '7'], ['m', 'i', 'n', '7'],
        ['d', 'i', 'm'], ['a', 'u', 'g'], ['s', 'u', 's', '2'],
        ['s', 'u', 's', '4']] : List GoStr) →
      getChordTypePriority s = 100) ∧
    (∀ l : List ChordWithMeta, l.Pairwise (fun a c => a.id < c.id) →
      (sortByChordType l).Perm l ∧
      (sortByChordType l).Pairwise (fun a c => prio a ≤ prio c) ∧
      (sortByChordType l).Pairwise
        (fun a c => prio a = prio c → a.id < c.id)) := by
  refine ⟨by decide, ?_, ?_⟩
  · intro s hs
    simp only [List.mem_cons, List.not_mem_nil, or_false, not_or] at hs
    obtain ⟨h1, h2, h3, h4, h5, h6, h7, h8, h9, h10, h11, h12⟩ := hs
    simp [getChordTypePriority, h1, h2, h3, h4, h5, h6, h7, h8, h9, h10,
      h11, h12]
  · intro l hl
    refine ⟨sortPasses_perm _ _, ?_, ?_⟩
    · have h := sortPasses_sorted l.length l [] rfl (by simp) (by simp)
      simpa [sortByChordType] using h
    · apply sortPasses_pairwise _ ?_ _ _ ?_
      · intro a c hlt heq
        omega
      · refine hl.imp ?_
        intro a c h hpe
        exact h

/-- Instantiation of `sortByChordType_spec` at the suffix `"power"` and
the two-record C-dim / C-min7 list. -/
theorem sortByChordType_spec_w :
    getChordTypePriority ['p', 'o', 'w', 'e', 'r'] = 100 ∧
    (sortByChordType [mkChord 0 ⟨['C'], ['d', 'i', 'm'], []⟩,
        mkChord 1 ⟨['C'], ['m', 'i', 'n', '7'], []⟩]).Pairwise
      (fun a c => prio a ≤ prio c) :=
  ⟨sortByChordType_spec.2.1 _ (by decide),
   (sortByChordType_spec.2.2 _ (by decide)).2.1⟩

/-! ## C1 — raw-name resolution of stored records -/

theorem takeWhile_append_of_all {p : Char → Bool} {k s : GoStr}
    (hk : ∀ c ∈ k, p c = true) (hs : ∀ c ∈ s.take 1, p c = false) :
    (k ++ s).takeWhile p = k := by
  induction k with
  | nil =>
    cases s with
    | nil => rfl
    | cons c rest =>
      have hc := hs c (by simp)
      simp [List.takeWhile_cons, hc]
  | cons a t ih =>
    have ha := hk a (List.mem_cons_self _ _)
    simp [List.takeWhile_cons, ha,
      ih (fun c hc => hk c (List.mem_cons_of_mem _ hc))]

theorem dropWhile_append_of_all {p : Char → Bool} {k s : GoStr}
    (hk : ∀ c ∈ k, p c = true) (hs : ∀ c ∈ s.take 1, p c = false) :
    (k ++ s).dropWhile p = s := by
  induction k with
  | nil =>
    cases s with
    | nil => rfl
    | cons c rest =>
      have hc := hs c (by simp)
      simp [List.dropWhile_cons, hc]
  | cons a t ih =>
    have ha := hk a (List.mem_cons_self _ _)
    simp [List.dropWhile_cons, ha,
      ih (fun c hc => hk c (List.mem_cons_of_mem _ hc))]

theorem splitChordName_append {k s : GoStr} (hne : k ≠ [])
    (hk : ∀ c ∈ k, isKeyChar c = true)
    (hs : ∀ c ∈ s.take 1, isKeyChar c = false) :
    splitChordName (k ++ s) = (k, s) := by
  unfold splitChordName
  rw [takeWhile_append_of_all hk hs, dropWhile_append_of_all hk hs, if_neg hne]

theorem chordCache_wf_aux :
    ∀ (ds : List RawChord) (i : Nat) (st : Store),
      (∀ c ∈ st.chordCache, c.normalizedKey = normalizeKey c.key ∧
        c.normalizedSuffix = normalizeSuffix c.suffix) →
      ∀ c ∈ (loadAux ds i st).chordCache,
        c.normalizedKey = normalizeKey c.key ∧
        c.normalizedSuffix = normalizeSuffix c.suffix := by
  intro ds
  induction ds with
  | nil => intro i st h; exact h
  | cons e rest ih =>
    intro i st h
    apply ih
    intro c hc
    simp only [addChord] at hc
    rcases List.mem_append.mp hc with hc1 | hc2
    · exact h c hc1
    · have hce : c = mkChord i e := by simpa using hc2
      subst hce
      exact ⟨rfl, rfl⟩

theorem chordCache_wf (ds : List RawChord) :
    ∀ c ∈ (loadChordData ds).chordCache,
      c.normalizedKey = normalizeKey c.key ∧
      c.normalizedSuffix = normalizeSuffix c.suffix :=
  chordCache_wf_aux ds 0 _ (by simp)

theorem mapGet_mapAppend (m : ChordMap) (k : GoStr) (c : ChordWithMeta) :
    ∀ k', mapGet (mapAppend m k c) k'
      = if k = k' then some ((mapGet m k).getD [] ++ [c])
        else mapGet m k' := by
  induction m with
  | nil =>
    intro k'
    by_cases h : k = k'
    · subst h
      simp [mapAppend, mapGet]
    · simp [mapAppend, mapGet, h]
  | cons e rest ih =>
    obtain ⟨k0, v0⟩ := e
    intro k'
    by_cases h0 : k0 = k
    · subst h0
      by_cases h : k0 = k'
      · subst h
        simp [mapAppend, mapGet]
      · simp [mapAppend, mapGet, h]
    · by_cases h : k0 = k'
      · subst h
        have hkk : ¬ k = k0 := fun hh => h0 hh.symm
        simp [mapAppend, mapGet, h0, hkk]
      · simp [mapAppend, mapGet, h0, h, ih k']

theorem normalizedMap_inv_aux :
    ∀ (ds : List RawChord) (i : Nat) (st : Store),
      (∀ k, mapGet st.normalizedMap k
        = optList (st.chordCache.filter (fun c => decide (nmKeyOf c = k)))) →
      ∀ k, mapGet (loadAux ds i st).normalizedMap k
        = optList ((loadAux ds i st).chordCache.filter
            (fun c => decide (nmKeyOf c = k))) := by
  intro ds
  induction ds with
  | nil => intro i st h; exact h
  | cons e rest ih =>
    intro i st h
    apply ih
    intro k
    simp only [addChord]
    rw [mapGet_mapAppend, List.filter_append]
    by_cases hk : nmKeyOf (mkChord i e) = k
    · subst hk
      rw [if_pos rfl, h (nmKeyOf (mkChord i e))]
      have hfc : List.filter
          (fun c => decide (nmKeyOf c = nmKeyOf (mkChord i e)))
          [mkChord i e] = [mkChord i e] := by simp
      rw [hfc]
      cases hF : st.chordCache.filter
          (fun c => decide (nmKeyOf c = nmKeyOf (mkChord i e))) with
      | nil => simp [optList]
      | cons x tl => simp [optList]
    · rw [if_neg hk, h k]
      have hfc : List.filter (fun c => decide (nmKeyOf c = k))
          [mkChord i e] = [] := by simp [hk]
      rw [hfc, List.append_nil]

theorem normalizedMap_inv (ds : List RawChord) (k : GoStr) :
    mapGet (loadChordData ds).normalizedMap k
      = optList ((loadChordData ds).chordCache.filter
          (fun c => decide (nmKeyOf c = k))) :=
  normalizedMap_inv_aux ds 0 _ (by intro k'; simp [mapGet, optList]) k

/-- C1 (counterexample): the single stored record `(key "C", suffix
"dim")` triggers no special-case rule on the query `"C" + "dim"`, yet
`searchByChordNameInMemory` returns the empty list — the key/suffix
split absorbs the lowercase letters `d`, `i` of `"dim"` into the key
run, so the record is not the first result. -/
theorem resolve_raw_name_cdim :
    (loadChordData dsCdim).chordCache
      = [mkChord 0 ⟨['C'], ['d', 'i', 'm'], []⟩] ∧
    specialCaseTriggers (['C'] ++ ['d', 'i', 'm']) = false ∧
    searchByChordNameInMemory (loadChordData dsCdim)
      (['C'] ++ ['d', 'i', 'm']) = [] := by decide

/-- C1 (amended): a stored record `r` is the first result of
`searchByChordNameInMemory` on the raw query `r.key + r.suffix`
provided that: no special-case rule triggers on the query; the
concatenation splits back into `(r.key, r.suffix)` under the source's
key-run grammar (`r.key` nonempty and made of `[A-Ga-g#b]` characters,
`r.suffix` empty or starting outside that class); and `r` is the first
record in dataset order carrying its normalized-map key. -/
theorem resolve_raw_name_first (ds : List RawChord) (r : ChordWithMeta)
    (hr : r ∈ (loadChordData ds).chordCache)
    (hspec : specialCaseTriggers (r.key ++ r.suffix) = false)
    (hkne : r.key ≠ [])
    (hkall : ∀ c ∈ r.key, isKeyChar c = true)
    (hsuf : ∀ c ∈ r.suffix.take 1, isKeyChar c = false)
    (hfirst : ((loadChordData ds).chordCache.filter
        (fun c => decide (nmKeyOf c = nmKeyOf r))).head? = some r) :
    ∃ rest, searchByChordNameInMemory (loadChordData ds)
      (r.key ++ r.suffix) = r :: rest := by
  have hno := of_decide_eq_false hspec
  simp only [not_or] at hno
  obtain ⟨h1, h2, h3, h4, h5, h6, h7, h8⟩ := hno
  have hbb : bbCase (loadChordData ds) (r.key ++ r.suffix) = none := by
    unfold bbCase
    rw [if_neg (not_or.mpr ⟨h1, h2⟩)]
  have ham : amCase (loadChordData ds) (r.key ++ r.suffix) = none := by
    unfold amCase
    rw [if_neg (not_or.mpr ⟨h3, not_or.mpr ⟨h4, h5⟩⟩)]
  have hcs : cSharpCase (loadChordData ds) (r.key ++ r.suffix) = none := by
    unfold cSharpCase
    rw [if_neg (not_or.mpr ⟨h6, not_or.mpr ⟨h7, h8⟩⟩)]
  have hwf := chordCache_wf ds r hr
  have hF : ∃ tl, (loadChordData ds).chordCache.filter
      (fun c => decide (nmKeyOf c = nmKeyOf r)) = r :: tl := by
    cases hF0 : (loadChordData ds).chordCache.filter
        (fun c => decide (nmKeyOf c = nmKeyOf r)) with
    | nil =>
      rw [hF0] at hfirst
      simp at hfirst
    | cons x tl =>
      rw [hF0, List.head?_cons] at hfirst
      cases hfirst
      exact ⟨tl, rfl⟩
  obtain ⟨tl, hF⟩ := hF
  refine ⟨tl, ?_⟩
  unfold searchByChordNameInMemory
  rw [hbb, ham, hcs]
  unfold genericNameSearch
  rw [splitChordName_append hkne hkall hsuf]
  have hkey : normalizeKey r.key ++ '|' :: normalizeSuffix r.suffix
      = nmKeyOf r := by
    rw [← hwf.1, ← hwf.2]
    rfl
  simp only [hkey]
  rw [normalizedMap_inv ds (nmKeyOf r), hF]
  simp [optList]

/-- Instantiation of `resolve_raw_name_first` on the one-record A7
store. -/
theorem resolve_raw_name_first_w :
    ∃ rest, searchByChordNameInMemory (loadChordData dsA7)
      ((mkChord 0 ⟨['A'], ['7'], []⟩).key ++
        (mkChord 0 ⟨['A'], ['7'], []⟩).suffix)
      = mkChord 0 ⟨['A'], ['7'], []⟩ :: rest :=
  resolve_raw_name_first dsA7 _ (by decide) (by decide) (by decide)
    (by decide) (by decide) (by decide)

end ChordServer
